import Mathlib

set_option linter.unusedVariables false

/-!
Shallow embedding of the pending-edits diff engine of the obsidian-claude-code
plugin (`src/pendingEdits`: `types.ts`, the diff module, `PendingEditsManager.ts`).

File contents are Lean `String`s.  JS `content.split('\n')` and
`lines.join('\n')` are modelled character-structurally by `splitLines` and
`joinLines`; JS `trim() === ''`, `slice(0, n)` and `.length` on strings are
modelled on the character list.  The LCS table built by the JS nested loops is
built by `lcsTable`; the backtracking while loop is `backtrackAux`, driven by
explicit fuel `i + j` (an exact bound on the number of loop iterations).
The manager's file system and `originalFileStates` map are association lists.
-/

inductive LineType
  | context
  | added
  | removed
deriving DecidableEq, Repr

structure DiffLine where
  type : LineType
  content : String
  oldLine : Option Nat := none
  newLine : Option Nat := none
deriving DecidableEq, Repr

inductive HunkStatus
  | pending
  | accepted
  | rejected
deriving DecidableEq, Repr

structure Hunk where
  id : String
  startLineOld : Nat
  startLineNew : Nat
  lines : List DiffLine
  preview : String
  status : HunkStatus
deriving DecidableEq, Repr

/-- JS `content.split('\n')`, on the character list (note `''.split('\n') = ['']`). -/
def splitLinesChars : List Char → List (List Char)
  | [] => [[]]
  | c :: cs =>
    match splitLinesChars cs with
    | [] => [[]]
    | line :: rest =>
      if c = '\n' then [] :: line :: rest else (c :: line) :: rest

/-- JS `content.split('\n')` for a Lean `String`. -/
def splitLines (s : String) : List String :=
  (splitLinesChars s.data).map (fun cs => { data := cs })

/-- JS `Array.prototype.join(sep)`. -/
def joinWith (sep : String) : List String → String
  | [] => ""
  | [x] => x
  | x :: xs => x ++ sep ++ joinWith sep xs

/-- JS `lines.join('\n')`. -/
def joinLines (ls : List String) : String := joinWith "\n" ls

/-- JS `s.trim() === ''`: every character is whitespace. -/
def isBlank (s : String) : Bool := s.data.all Char.isWhitespace

/-- `line.type !== 'context'`. -/
def isChangeLine (l : DiffLine) : Bool :=
  match l.type with
  | LineType.context => false
  | _ => true

/-- Inner loop of the LCS table construction: given the previous row
`pPrev :: pRest` (entries `lcs[i-1][j-1], lcs[i-1][j], ...`), the remaining new
lines and the entry `cPrev = lcs[i][j-1]` just computed, produce the entries
`lcs[i][j], lcs[i][j+1], ...` of row `i`. -/
def rowStep (oldLine : String) : List String → List Nat → Nat → List Nat
  | [], _, _ => []
  | nl :: nls, pPrev :: pRest, cPrev =>
    let pCur := pRest.headD 0
    let c := if oldLine = nl then pPrev + 1 else max pCur cPrev
    c :: rowStep oldLine nls pRest c
  | _ :: _, [], _ => []

/-- Row `i` of the LCS table from row `i - 1` (entry `j = 0` is `0`). -/
def nextRow (prevRow : List Nat) (oldLine : String) (newLines : List String) : List Nat :=
  0 :: rowStep oldLine newLines prevRow 0

/-- The `(m+1) × (n+1)` LCS table built by the JS double loop. -/
def lcsTable (oldLines newLines : List String) : List (List Nat) :=
  oldLines.foldl (fun rows ol => rows ++ [nextRow (rows.getLastD []) ol newLines])
    [List.replicate (newLines.length + 1) 0]

/-- `lcs[i][j]` lookup. -/
def lcsAt (tbl : List (List Nat)) (i j : Nat) : Nat := (tbl.getD i []).getD j 0

/-- The backtracking while loop of `computeLineDiff`.  Each iteration decreases
`i + j`, so fuel `i + j` makes the recursion exact; the `fuel = 0` base case is
unreachable from `computeLineDiff`'s top-level call. -/
def backtrackAux (old new : List String) (tbl : List (List Nat)) :
    Nat → Nat → Nat → List DiffLine
  | 0, _, _ => []
  | fuel + 1, i, j =>
    if i = 0 ∧ j = 0 then []
    else if 0 < i ∧ 0 < j ∧ old.getD (i - 1) "" = new.getD (j - 1) "" then
      backtrackAux old new tbl fuel (i - 1) (j - 1) ++
        [{ type := LineType.context, content := old.getD (i - 1) "",
           oldLine := some (i - 1), newLine := some (j - 1) }]
    else if 0 < j ∧ (i = 0 ∨ lcsAt tbl i (j - 1) ≥ lcsAt tbl (i - 1) j) then
      backtrackAux old new tbl fuel i (j - 1) ++
        [{ type := LineType.added, content := new.getD (j - 1) "",
           oldLine := none, newLine := some (j - 1) }]
    else if 0 < i then
      backtrackAux old new tbl fuel (i - 1) j ++
        [{ type := LineType.removed, content := old.getD (i - 1) "",
           oldLine := some (i - 1), newLine := none }]
    else []

/-- `computeLineDiff` from the diff module: split both contents into lines,
build the LCS table, then backtrack from `(m, n)` to `(0, 0)`. -/
def computeLineDiff (oldContent newContent : String) : List DiffLine :=
  let oldLines := splitLines oldContent
  let newLines := splitLines newContent
  let tbl := lcsTable oldLines newLines
  backtrackAux oldLines newLines tbl (oldLines.length + newLines.length)
    oldLines.length newLines.length

/-- JS `String.prototype.slice(0, n)` (character model). -/
def sliceChars (s : String) (n : Nat) : String := { data := s.data.take n }

/-- `createHunk` from the diff module. -/
def createHunk (i startLineOld startLineNew : Nat) (lines : List DiffLine) : Hunk :=
  let changedLines := lines.filter isChangeLine
  let previewLines := (changedLines.take 2).map (fun l =>
    let pfx := if l.type = LineType.added then "+" else "-"
    pfx ++ sliceChars l.content 25 ++ (if 25 < l.content.data.length then "..." else ""))
  let preview := joinWith " " previewLines
  { id := "hunk-" ++ toString i, startLineOld := startLineOld, startLineNew := startLineNew,
    lines := lines, preview := if preview = "" then "(empty change)" else preview,
    status := HunkStatus.pending }

/-- State of the `computeHunks` loop over the diff lines. -/
structure HunkBuildState where
  hunks : List Hunk
  currentHunk : List DiffLine
  hunkStartOld : Nat
  hunkStartNew : Nat
  hunkId : Nat
  inChangeBlock : Bool
  hasSeenAdd : Bool
deriving DecidableEq, Repr

/-- Push `currentHunk` as a finished hunk (the `hunks.push(createHunk(hunkId++, ...))` step). -/
def pushCurrent (s : HunkBuildState) : HunkBuildState :=
  { s with hunks := s.hunks ++ [createHunk s.hunkId s.hunkStartOld s.hunkStartNew s.currentHunk],
           hunkId := s.hunkId + 1 }

/-- Reset of the open hunk after the removed-after-added split: reuse the
last line of the closed hunk as leading context when it is a blank context
line (`lastLine?.type === 'context' && lastLine.content.trim() === ''`),
start empty otherwise. -/
def splitReset (s1 : HunkBuildState) : Option DiffLine → HunkBuildState
  | some lastLine =>
    if lastLine.type = LineType.context ∧ isBlank lastLine.content = true then
      { s1 with currentHunk := [lastLine], hunkStartOld := lastLine.oldLine.getD 0,
                hunkStartNew := lastLine.newLine.getD 0, hasSeenAdd := false }
    else { s1 with currentHunk := [], hasSeenAdd := false }
  | none => { s1 with currentHunk := [], hasSeenAdd := false }

/-- The removed-after-added split at the top of the `isChange` branch of
`computeHunks`: close the current hunk (when it holds a change line), keeping
its last blank context line (if any) as leading context of the next hunk. -/
def splitPhase (line : DiffLine) (s : HunkBuildState) : HunkBuildState :=
  if line.type = LineType.removed ∧ s.hasSeenAdd = true ∧ s.inChangeBlock = true then
    splitReset (if s.currentHunk.any isChangeLine then pushCurrent s else s)
      s.currentHunk.getLast?
  else s

/-- When not in a change block, keep only the last accumulated context line as
leading context (`currentHunk.slice(-1)`). -/
def trimLeadPhase (s : HunkBuildState) : HunkBuildState :=
  if s.inChangeBlock = false ∧ s.currentHunk ≠ [] then
    match s.currentHunk.getLast? with
    | some lc =>
      { s with currentHunk := [lc], hunkStartOld := lc.oldLine.getD 0,
               hunkStartNew := lc.newLine.getD 0 }
    | none => s
  else s

/-- If the current hunk is empty, record the start lines from the change line. -/
def startPhase (line : DiffLine) (s : HunkBuildState) : HunkBuildState :=
  if s.currentHunk = [] then
    { s with hunkStartOld := line.oldLine.getD 0, hunkStartNew := line.newLine.getD 0 }
  else s

/-- Push the change line and update the flags. -/
def pushLinePhase (line : DiffLine) (s : HunkBuildState) : HunkBuildState :=
  { s with currentHunk := s.currentHunk ++ [line], inChangeBlock := true,
           hasSeenAdd := if line.type = LineType.added then true else s.hasSeenAdd }

/-- Non-blank context while in a change block: add it as trailing context, save
the hunk (when it holds a change) and reset. -/
def flushPhase (line : DiffLine) (s : HunkBuildState) : HunkBuildState :=
  if (s.currentHunk ++ [line]).any isChangeLine then
    { s with hunks := s.hunks ++
        [createHunk s.hunkId s.hunkStartOld s.hunkStartNew (s.currentHunk ++ [line])],
             hunkId := s.hunkId + 1, currentHunk := [], inChangeBlock := false,
             hasSeenAdd := false }
  else { s with currentHunk := [], inChangeBlock := false, hasSeenAdd := false }

/-- One iteration of the `computeHunks` loop. -/
def hunkStep (s : HunkBuildState) (line : DiffLine) : HunkBuildState :=
  if isChangeLine line then
    pushLinePhase line (startPhase line (trimLeadPhase (splitPhase line s)))
  else if isBlank line.content then
    { s with currentHunk := s.currentHunk ++ [line] }
  else if s.inChangeBlock then
    flushPhase line s
  else
    { s with currentHunk := s.currentHunk ++ [line] }

/-- The trailing `// Finish last hunk` block of `computeHunks`. -/
def finalizeHunks (s : HunkBuildState) : List Hunk :=
  if s.currentHunk ≠ [] ∧ s.currentHunk.any isChangeLine then
    s.hunks ++ [createHunk s.hunkId s.hunkStartOld s.hunkStartNew s.currentHunk]
  else s.hunks

/-- `computeHunks` from the diff module (blank-line absorbing version). -/
def computeHunks (oldContent newContent : String) : List Hunk :=
  let diffLines := computeLineDiff oldContent newContent
  if diffLines = [] then []
  else finalizeHunks (diffLines.foldl hunkStep ⟨[], [], 0, 0, 0, false, false⟩)

/-- The structural line match of `applyHunkDecisions`
(`hl.type === line.type && hl.content === line.content && hl.oldLine === line.oldLine && hl.newLine === line.newLine`). -/
def lineMatches (hl l : DiffLine) : Bool :=
  decide (hl.type = l.type ∧ hl.content = l.content ∧ hl.oldLine = l.oldLine ∧
    hl.newLine = l.newLine)

/-- `applyHunkDecisions` from the diff module. -/
def applyHunkDecisions (originalContent currentContent : String) (hunks : List Hunk) :
    String :=
  if hunks.all (fun h => decide (h.status = HunkStatus.accepted)) then currentContent
  else if hunks.all (fun h => decide (h.status = HunkStatus.rejected)) then originalContent
  else
    let fullDiff := computeLineDiff originalContent currentContent
    let resultLines := fullDiff.filterMap (fun line =>
      let hunk? := hunks.find? (fun h => h.lines.any (fun hl => lineMatches hl line))
      match line.type with
      | LineType.context => some line.content
      | LineType.added =>
        match hunk? with
        | some hk =>
          if hk.status = HunkStatus.accepted ∨ hk.status = HunkStatus.pending then
            some line.content
          else none
        | none => none
      | LineType.removed =>
        match hunk? with
        | some hk => if hk.status = HunkStatus.rejected then some line.content else none
        | none => none)
    joinLines resultLines

structure PendingFile where
  filePath : String
  vaultPath : String
  originalContent : String
  currentContent : String
  hunks : List Hunk
  timestamp : Nat
deriving DecidableEq, Repr

structure PendingEdit where
  id : String
  filePath : String
  vaultPath : String
  beforeContent : String
  afterContent : String
  timestamp : Nat
  diffLines : List DiffLine
  toolName : String
deriving DecidableEq, Repr

/-- Association-list update modelling `Map.set` (overwrite or append). -/
def assocSet (m : List (String × String)) (k v : String) : List (String × String) :=
  if m.any (fun p => p.1 = k) then
    m.map (fun p => if p.1 = k then (k, v) else p)
  else m ++ [(k, v)]

/-- Association-list lookup modelling `Map.get` / `fs.readFile`. -/
def assocGet (m : List (String × String)) (k : String) : Option String :=
  (m.find? (fun p => p.1 = k)).map (fun p => p.2)

/-- Association-list removal modelling `Map.delete`. -/
def assocDelete (m : List (String × String)) (k : String) : List (String × String) :=
  m.filter (fun p => ¬p.1 = k)

/-- The manager state touched by the hunk operations: the `pendingFilesAtom`
and `pendingEditsAtom` stores, the `originalFileStates` map and the file
system (both `fs` and the Obsidian vault write collapse to one map). -/
structure ManagerState where
  pendingFiles : List PendingFile
  pendingEdits : List PendingEdit
  originalFileStates : List (String × String)
  disk : List (String × String)
deriving DecidableEq, Repr

/-- Decision list built by `acceptHunkImmediate`: the chosen hunk accepted,
every other hunk rejected. -/
def acceptDecisions (hunks : List Hunk) (hunkId : String) : List Hunk :=
  hunks.map (fun h =>
    if h.id = hunkId then { h with status := HunkStatus.accepted }
    else { h with status := HunkStatus.rejected })

/-- Decision list built by `rejectHunkImmediate`: the chosen hunk rejected,
every other hunk left as is. -/
def rejectDecisions (hunks : List Hunk) (hunkId : String) : List Hunk :=
  hunks.map (fun h =>
    if h.id = hunkId then { h with status := HunkStatus.rejected } else h)

/-- `PendingEditsManager.acceptHunkImmediate`. -/
def acceptHunkImmediate (s : ManagerState) (filePath hunkId : String) : ManagerState :=
  match s.pendingFiles.find? (fun f => f.filePath = filePath) with
  | none => s
  | some file =>
    match file.hunks.find? (fun h => h.id = hunkId) with
    | none => s
    | some _ =>
      let hunksWithDecision := acceptDecisions file.hunks hunkId
      let newOriginal :=
        applyHunkDecisions file.originalContent file.currentContent hunksWithDecision
      let s1 := { s with originalFileStates := assocSet s.originalFileStates filePath newOriginal }
      match assocGet s1.disk filePath with
      | none => s1
      | some currentContent =>
        let remainingHunks := computeHunks newOriginal currentContent
        if remainingHunks = [] then
          { s1 with originalFileStates := assocDelete s1.originalFileStates filePath,
                    pendingFiles := s1.pendingFiles.filter (fun f => ¬f.filePath = filePath),
                    pendingEdits := s1.pendingEdits.filter (fun e => ¬e.filePath = filePath) }
        else
          { s1 with pendingFiles := s1.pendingFiles.map (fun f =>
              if f.filePath = filePath then
                { f with originalContent := newOriginal, currentContent := currentContent,
                         hunks := remainingHunks }
              else f) }

/-- `PendingEditsManager.rejectHunkImmediate`. -/
def rejectHunkImmediate (s : ManagerState) (filePath hunkId : String) : ManagerState :=
  match s.pendingFiles.find? (fun f => f.filePath = filePath) with
  | none => s
  | some file =>
    match file.hunks.find? (fun h => h.id = hunkId) with
    | none => s
    | some _ =>
      let hunksWithDecision := rejectDecisions file.hunks hunkId
      let newContent :=
        applyHunkDecisions file.originalContent file.currentContent hunksWithDecision
      let s1 := { s with disk := assocSet s.disk filePath newContent }
      let remainingHunks := computeHunks file.originalContent newContent
      if remainingHunks = [] then
        { s1 with originalFileStates := assocDelete s1.originalFileStates filePath,
                  pendingFiles := s1.pendingFiles.filter (fun f => ¬f.filePath = filePath),
                  pendingEdits := s1.pendingEdits.filter (fun e => ¬e.filePath = filePath) }
      else
        { s1 with pendingFiles := s1.pendingFiles.map (fun f =>
            if f.filePath = filePath then
              { f with currentContent := newContent, hunks := remainingHunks }
            else f) }

/-- `PendingEditsManager.applyHunkDecisionsForFile`; the boolean is `true`
exactly when the still-pending warning is reported. -/
def applyHunkDecisionsForFile (s : ManagerState) (filePath : String) :
    ManagerState × Bool :=
  match s.pendingFiles.find? (fun f => f.filePath = filePath) with
  | none => (s, false)
  | some file =>
    if file.hunks.any (fun h => decide (h.status = HunkStatus.pending)) then (s, true)
    else
      let finalContent :=
        applyHunkDecisions file.originalContent file.currentContent file.hunks
      ({ s with disk := assocSet s.disk filePath finalContent,
                originalFileStates := assocDelete s.originalFileStates filePath,
                pendingFiles := s.pendingFiles.filter (fun f => ¬f.filePath = filePath),
                pendingEdits := s.pendingEdits.filter (fun e => ¬e.filePath = filePath) },
       false)

/-! ### Lemmas: line splitting and joining -/

/-- Proof-side counterpart of `joinLines` on character lists. -/
def joinChars : List (List Char) → List Char
  | [] => []
  | [x] => x
  | x :: y :: t => x ++ '\n' :: joinChars (y :: t)

theorem splitLinesChars_ne_nil (cs : List Char) : splitLinesChars cs ≠ [] := by
  induction cs with
  | nil => simp [splitLinesChars]
  | cons c cs ih =>
    cases h : splitLinesChars cs with
    | nil => exact absurd h ih
    | cons line rest =>
      simp only [splitLinesChars, h]
      split <;> simp

theorem joinChars_splitLinesChars (cs : List Char) :
    joinChars (splitLinesChars cs) = cs := by
  induction cs with
  | nil => rfl
  | cons c cs ih =>
    cases h : splitLinesChars cs with
    | nil => exact absurd h (splitLinesChars_ne_nil cs)
    | cons line rest =>
      simp only [splitLinesChars, h]
      rw [h] at ih
      by_cases hc : c = '\n'
      · subst hc
        simp only [if_pos rfl, joinChars]
        simpa using ih
      · rw [if_neg hc]
        cases rest with
        | nil => simpa [joinChars] using ih
        | cons r rs => simpa [joinChars] using ih

theorem data_joinLines (lss : List (List Char)) :
    (joinLines (lss.map (fun cs => ({ data := cs } : String)))).data = joinChars lss := by
  induction lss with
  | nil => rfl
  | cons x t ih =>
    cases t with
    | nil => rfl
    | cons y ts =>
      simp only [List.map_cons, joinLines, joinWith, joinChars] at ih ⊢
      rw [String.data_append, String.data_append]
      simpa using ih

theorem joinLines_splitLines (s : String) : joinLines (splitLines s) = s := by
  apply String.ext
  rw [splitLines, data_joinLines, joinChars_splitLinesChars]

/-! ### Lemmas: the backtracking loop -/

/-- Keep `context` and `added` lines (the new-content side of the diff). -/
def keepNewSide (l : DiffLine) : Bool :=
  match l.type with
  | LineType.removed => false
  | _ => true

/-- Keep `context` and `removed` lines (the old-content side of the diff). -/
def keepOldSide (l : DiffLine) : Bool :=
  match l.type with
  | LineType.added => false
  | _ => true

theorem take_concat_getD {α : Type _} :
    ∀ (l : List α) (j : Nat) (d : α), j < l.length →
      l.take j ++ [l.getD j d] = l.take (j + 1)
  | x :: xs, 0, d, _ => by simp [List.getD]
  | x :: xs, j + 1, d, h => by
    simp only [List.take_succ_cons, List.getD_cons_succ, List.cons_append,
      List.cons.injEq, true_and]
    exact take_concat_getD xs j d (by simpa using h)
  | [], j, d, h => by simp at h

theorem backtrackAux_zero_zero (old new : List String) (tbl : List (List Nat))
    (fuel : Nat) : backtrackAux old new tbl fuel 0 0 = [] := by
  cases fuel <;> simp [backtrackAux]

theorem backtrack_filter_new (old new : List String) (tbl : List (List Nat)) :
    ∀ fuel i j, i + j ≤ fuel → i ≤ old.length → j ≤ new.length →
      ((backtrackAux old new tbl fuel i j).filter keepNewSide).map DiffLine.content
        = new.take j := by
  intro fuel
  induction fuel with
  | zero =>
    intro i j hij hi hj
    have hi0 : i = 0 := by omega
    have hj0 : j = 0 := by omega
    subst hi0; subst hj0
    simp [backtrackAux]
  | succ fuel ih =>
    intro i j hij hi hj
    by_cases h0 : i = 0 ∧ j = 0
    · rcases h0 with ⟨hi0, hj0⟩
      subst hi0; subst hj0
      simp [backtrackAux]
    · rw [backtrackAux, if_neg h0]
      by_cases hctx : 0 < i ∧ 0 < j ∧ old.getD (i - 1) "" = new.getD (j - 1) ""
      · rw [if_pos hctx]
        rcases hctx with ⟨hi1, hj1, heq⟩
        rw [List.filter_append, List.map_append]
        rw [ih (i - 1) (j - 1) (by omega) (by omega) (by omega)]
        simp only [List.filter_cons, List.filter_nil, keepNewSide, List.map_cons,
          List.map_nil]
        rw [heq]
        have := take_concat_getD new (j - 1) "" (by omega)
        simpa [Nat.sub_add_cancel hj1] using this
      · rw [if_neg hctx]
        by_cases hadd : 0 < j ∧ (i = 0 ∨ lcsAt tbl i (j - 1) ≥ lcsAt tbl (i - 1) j)
        · rw [if_pos hadd]
          rcases hadd with ⟨hj1, _⟩
          rw [List.filter_append, List.map_append]
          rw [ih i (j - 1) (by omega) hi (by omega)]
          simp only [List.filter_cons, List.filter_nil, keepNewSide, List.map_cons,
            List.map_nil]
          have := take_concat_getD new (j - 1) "" (by omega)
          simpa [Nat.sub_add_cancel hj1] using this
        · rw [if_neg hadd]
          have hi1 : 0 < i := by
            rcases Nat.eq_zero_or_pos i with hi0 | hi1
            · exfalso
              rcases Nat.eq_zero_or_pos j with hj0 | hj1
              · exact h0 ⟨hi0, hj0⟩
              · exact hadd ⟨hj1, Or.inl hi0⟩
            · exact hi1
          rw [if_pos hi1]
          rw [List.filter_append, List.map_append]
          rw [ih (i - 1) j (by omega) (by omega) hj]
          simp [keepNewSide]

theorem backtrack_filter_old (old new : List String) (tbl : List (List Nat)) :
    ∀ fuel i j, i + j ≤ fuel → i ≤ old.length → j ≤ new.length →
      ((backtrackAux old new tbl fuel i j).filter keepOldSide).map DiffLine.content
        = old.take i := by
  intro fuel
  induction fuel with
  | zero =>
    intro i j hij hi hj
    have hi0 : i = 0 := by omega
    have hj0 : j = 0 := by omega
    subst hi0; subst hj0
    simp [backtrackAux]
  | succ fuel ih =>
    intro i j hij hi hj
    by_cases h0 : i = 0 ∧ j = 0
    · rcases h0 with ⟨hi0, hj0⟩
      subst hi0; subst hj0
      simp [backtrackAux]
    · rw [backtrackAux, if_neg h0]
      by_cases hctx : 0 < i ∧ 0 < j ∧ old.getD (i - 1) "" = new.getD (j - 1) ""
      · rw [if_pos hctx]
        rcases hctx with ⟨hi1, hj1, heq⟩
        rw [List.filter_append, List.map_append]
        rw [ih (i - 1) (j - 1) (by omega) (by omega) (by omega)]
        simp only [List.filter_cons, List.filter_nil, keepOldSide, List.map_cons,
          List.map_nil]
        have := take_concat_getD old (i - 1) "" (by omega)
        simpa [Nat.sub_add_cancel hi1] using this
      · rw [if_neg hctx]
        by_cases hadd : 0 < j ∧ (i = 0 ∨ lcsAt tbl i (j - 1) ≥ lcsAt tbl (i - 1) j)
        · rw [if_pos hadd]
          rcases hadd with ⟨hj1, _⟩
          rw [List.filter_append, List.map_append]
          rw [ih i (j - 1) (by omega) hi (by omega)]
          simp [keepOldSide]
        · rw [if_neg hadd]
          have hi1 : 0 < i := by
            rcases Nat.eq_zero_or_pos i with hi0 | hi1
            · exfalso
              rcases Nat.eq_zero_or_pos j with hj0 | hj1
              · exact h0 ⟨hi0, hj0⟩
              · exact hadd ⟨hj1, Or.inl hi0⟩
            · exact hi1
          rw [if_pos hi1]
          rw [List.filter_append, List.map_append]
          rw [ih (i - 1) j (by omega) (by omega) hj]
          simp only [List.filter_cons, List.filter_nil, keepOldSide, List.map_cons,
            List.map_nil]
          have := take_concat_getD old (i - 1) "" (by omega)
          simpa [Nat.sub_add_cancel hi1] using this

theorem backtrack_bounds (old new : List String) (tbl : List (List Nat)) :
    ∀ fuel i j, ∀ l ∈ backtrackAux old new tbl fuel i j,
      (∀ k, l.oldLine = some k → k < i) ∧ (∀ k, l.newLine = some k → k < j) := by
  intro fuel
  induction fuel with
  | zero => intro i j l hl; simp [backtrackAux] at hl
  | succ fuel ih =>
    intro i j l hl
    rw [backtrackAux] at hl
    by_cases h0 : i = 0 ∧ j = 0
    · rw [if_pos h0] at hl; simp at hl
    · rw [if_neg h0] at hl
      by_cases hctx : 0 < i ∧ 0 < j ∧ old.getD (i - 1) "" = new.getD (j - 1) ""
      · rw [if_pos hctx] at hl
        rcases List.mem_append.1 hl with hrest | hthis
        · have := ih (i - 1) (j - 1) l hrest
          exact ⟨fun k hk => by have := this.1 k hk; omega,
                 fun k hk => by have := this.2 k hk; omega⟩
        · simp at hthis
          subst hthis
          refine ⟨fun k hk => ?_, fun k hk => ?_⟩
          · simp at hk; omega
          · simp at hk; omega
      · rw [if_neg hctx] at hl
        by_cases hadd : 0 < j ∧ (i = 0 ∨ lcsAt tbl i (j - 1) ≥ lcsAt tbl (i - 1) j)
        · rw [if_pos hadd] at hl
          rcases List.mem_append.1 hl with hrest | hthis
          · have := ih i (j - 1) l hrest
            exact ⟨this.1, fun k hk => by have := this.2 k hk; omega⟩
          · simp at hthis
            subst hthis
            refine ⟨fun k hk => by simp at hk, fun k hk => ?_⟩
            simp at hk; omega
        · rw [if_neg hadd] at hl
          by_cases hrem : 0 < i
          · rw [if_pos hrem] at hl
            rcases List.mem_append.1 hl with hrest | hthis
            · have := ih (i - 1) j l hrest
              exact ⟨fun k hk => by have := this.1 k hk; omega, this.2⟩
            · simp at hthis
              subst hthis
              refine ⟨fun k hk => ?_, fun k hk => by simp at hk⟩
              simp at hk; omega
          · rw [if_neg hrem] at hl; simp at hl

theorem backtrack_nodup (old new : List String) (tbl : List (List Nat)) :
    ∀ fuel i j, (backtrackAux old new tbl fuel i j).Nodup := by
  intro fuel
  induction fuel with
  | zero => intro i j; simp [backtrackAux]
  | succ fuel ih =>
    intro i j
    rw [backtrackAux]
    by_cases h0 : i = 0 ∧ j = 0
    · rw [if_pos h0]; simp
    · rw [if_neg h0]
      by_cases hctx : 0 < i ∧ 0 < j ∧ old.getD (i - 1) "" = new.getD (j - 1) ""
      · rw [if_pos hctx]
        rw [List.nodup_append]
        refine ⟨ih (i - 1) (j - 1), by simp, ?_⟩
        intro x hx
        simp only [List.mem_singleton]
        intro heq
        have := (backtrack_bounds old new tbl fuel (i - 1) (j - 1) x hx).2 (j - 1)
          (by rw [heq])
        omega
      · rw [if_neg hctx]
        by_cases hadd : 0 < j ∧ (i = 0 ∨ lcsAt tbl i (j - 1) ≥ lcsAt tbl (i - 1) j)
        · rw [if_pos hadd]
          rw [List.nodup_append]
          refine ⟨ih i (j - 1), by simp, ?_⟩
          intro x hx
          simp only [List.mem_singleton]
          intro heq
          have := (backtrack_bounds old new tbl fuel i (j - 1) x hx).2 (j - 1)
            (by rw [heq])
          omega
        · rw [if_neg hadd]
          by_cases hrem : 0 < i
          · rw [if_pos hrem]
            rw [List.nodup_append]
            refine ⟨ih (i - 1) j, by simp, ?_⟩
            intro x hx
            simp only [List.mem_singleton]
            intro heq
            have := (backtrack_bounds old new tbl fuel (i - 1) j x hx).1 (i - 1)
              (by rw [heq])
            omega
          · rw [if_neg hrem]; simp

theorem backtrack_refl_context (ls : List String) (tbl : List (List Nat)) :
    ∀ fuel i, ∀ l ∈ backtrackAux ls ls tbl fuel i i, l.type = LineType.context := by
  intro fuel
  induction fuel with
  | zero => intro i l hl; simp [backtrackAux] at hl
  | succ fuel ih =>
    intro i l hl
    rw [backtrackAux] at hl
    by_cases h0 : i = 0
    · rw [if_pos ⟨h0, h0⟩] at hl; simp at hl
    · have hi : 0 < i := Nat.pos_of_ne_zero h0
      rw [if_neg (by omega), if_pos ⟨hi, hi, rfl⟩] at hl
      rcases List.mem_append.1 hl with hrest | hthis
      · exact ih (i - 1) l hrest
      · simp at hthis; subst hthis; rfl

theorem backtrack_fuel_stable (old new : List String) (tbl : List (List Nat)) :
    ∀ fuel fuel2 i j, i + j ≤ fuel → i + j ≤ fuel2 →
      backtrackAux old new tbl fuel i j = backtrackAux old new tbl fuel2 i j := by
  intro fuel
  induction fuel with
  | zero =>
    intro fuel2 i j h1 h2
    have hi : i = 0 := by omega
    have hj : j = 0 := by omega
    subst hi; subst hj
    rw [backtrackAux_zero_zero, backtrackAux_zero_zero]
  | succ fuel ih =>
    intro fuel2 i j h1 h2
    by_cases h0 : i = 0 ∧ j = 0
    · rcases h0 with ⟨hi, hj⟩
      subst hi; subst hj
      rw [backtrackAux_zero_zero, backtrackAux_zero_zero]
    · have hfuel2 : ∃ f2, fuel2 = f2 + 1 := by
        cases fuel2 with
        | zero => exfalso; omega
        | succ f2 => exact ⟨f2, rfl⟩
      rcases hfuel2 with ⟨f2, rfl⟩
      rw [backtrackAux, backtrackAux, if_neg h0, if_neg h0]
      by_cases hctx : 0 < i ∧ 0 < j ∧ old.getD (i - 1) "" = new.getD (j - 1) ""
      · rw [if_pos hctx, if_pos hctx, ih f2 (i - 1) (j - 1) (by omega) (by omega)]
      · rw [if_neg hctx, if_neg hctx]
        by_cases hadd : 0 < j ∧ (i = 0 ∨ lcsAt tbl i (j - 1) ≥ lcsAt tbl (i - 1) j)
        · rw [if_pos hadd, if_pos hadd, ih f2 i (j - 1) (by omega) (by omega)]
        · rw [if_neg hadd, if_neg hadd]
          by_cases hrem : 0 < i
          · rw [if_pos hrem, if_pos hrem, ih f2 (i - 1) j (by omega) (by omega)]
          · rw [if_neg hrem, if_neg hrem]

theorem computeLineDiff_unfold (o n : String) :
    computeLineDiff o n =
      backtrackAux (splitLines o) (splitLines n)
        (lcsTable (splitLines o) (splitLines n))
        ((splitLines o).length + (splitLines n).length)
        (splitLines o).length (splitLines n).length := rfl

theorem computeLineDiff_nodup (o c : String) : (computeLineDiff o c).Nodup := by
  rw [computeLineDiff_unfold]
  exact backtrack_nodup _ _ _ _ _ _

theorem computeLineDiff_self_context (c : String) :
    ∀ l ∈ computeLineDiff c c, l.type = LineType.context := by
  rw [computeLineDiff_unfold]
  intro l hl
  exact backtrack_refl_context _ _ _ _ l hl

/-! ### Lemmas: computeHunks loop invariant -/

/-- The non-context lines of a diff-line list. -/
def changesOf (ls : List DiffLine) : List DiffLine := ls.filter isChangeLine

/-- All non-context lines across a hunk list, in hunk order. -/
def hunksChanges (hs : List Hunk) : List DiffLine :=
  (hs.map (fun h => changesOf h.lines)).join

theorem changesOf_append (xs ys : List DiffLine) :
    changesOf (xs ++ ys) = changesOf xs ++ changesOf ys := List.filter_append xs ys

theorem hunksChanges_append (hs : List Hunk) (h : Hunk) :
    hunksChanges (hs ++ [h]) = hunksChanges hs ++ changesOf h.lines := by
  simp [hunksChanges]

theorem hunksChanges_cons (h : Hunk) (hs : List Hunk) :
    hunksChanges (h :: hs) = changesOf h.lines ++ hunksChanges hs := rfl

theorem createHunk_lines (i a b : Nat) (ls : List DiffLine) :
    (createHunk i a b ls).lines = ls := rfl

theorem createHunk_status (i a b : Nat) (ls : List DiffLine) :
    (createHunk i a b ls).status = HunkStatus.pending := rfl

theorem changesOf_nil_of_any_false {ls : List DiffLine}
    (h : ls.any isChangeLine = false) : changesOf ls = [] := by
  rw [changesOf, List.filter_eq_nil]
  intro a ha
  have := List.any_eq_false.1 h a ha
  simpa using this

/-- Loop invariant of `computeHunks`: the non-context lines of the finished
hunks followed by those of the open hunk are exactly the non-context lines of
the processed prefix, in order; outside a change block the open hunk has no
change line; every finished hunk is pending and holds a change line. -/
def StateInv (pre : List DiffLine) (s : HunkBuildState) : Prop :=
  hunksChanges s.hunks ++ changesOf s.currentHunk = changesOf pre
  ∧ (s.inChangeBlock = false → changesOf s.currentHunk = [])
  ∧ (∀ h ∈ s.hunks, h.status = HunkStatus.pending ∧ h.lines.any isChangeLine = true)

theorem splitReset_props (s1 : HunkBuildState) (o : Option DiffLine) :
    (splitReset s1 o).hunks = s1.hunks
    ∧ changesOf (splitReset s1 o).currentHunk = []
    ∧ (splitReset s1 o).inChangeBlock = s1.inChangeBlock := by
  cases o with
  | none => exact ⟨rfl, rfl, rfl⟩
  | some lastLine =>
    by_cases hbl : lastLine.type = LineType.context ∧ isBlank lastLine.content = true
    · rw [splitReset, if_pos hbl]
      exact ⟨rfl, by simp [changesOf, isChangeLine, hbl.1], rfl⟩
    · rw [splitReset, if_neg hbl]
      exact ⟨rfl, rfl, rfl⟩

theorem splitPhase_props (line : DiffLine) (s : HunkBuildState)
    (hh : ∀ h ∈ s.hunks, h.status = HunkStatus.pending ∧ h.lines.any isChangeLine = true) :
    hunksChanges (splitPhase line s).hunks ++ changesOf (splitPhase line s).currentHunk
        = hunksChanges s.hunks ++ changesOf s.currentHunk
    ∧ (splitPhase line s).inChangeBlock = s.inChangeBlock
    ∧ (s.inChangeBlock = false → splitPhase line s = s)
    ∧ (∀ h ∈ (splitPhase line s).hunks,
        h.status = HunkStatus.pending ∧ h.lines.any isChangeLine = true) := by
  by_cases hcond : line.type = LineType.removed ∧ s.hasSeenAdd = true ∧
      s.inChangeBlock = true
  · have hsp : splitPhase line s =
        splitReset (if s.currentHunk.any isChangeLine then pushCurrent s else s)
          s.currentHunk.getLast? := by
      rw [splitPhase, if_pos hcond]
    obtain ⟨r1, r2, r3⟩ := splitReset_props
      (if s.currentHunk.any isChangeLine then pushCurrent s else s)
      s.currentHunk.getLast?
    have hcb : ¬s.inChangeBlock = false := by
      rw [hcond.2.2]; simp
    by_cases hany : s.currentHunk.any isChangeLine = true
    · rw [if_pos hany] at r1 r2 r3 hsp
      refine ⟨?_, ?_, fun h0 => absurd h0 hcb, ?_⟩
      · rw [hsp, r1, r2, List.append_nil]
        simp only [pushCurrent]
        rw [hunksChanges_append, createHunk_lines]
      · rw [hsp, r3]; rfl
      · intro h hmem
        rw [hsp, r1] at hmem
        simp only [pushCurrent] at hmem
        rcases List.mem_append.1 hmem with hold | hthis
        · exact hh h hold
        · simp only [List.mem_singleton] at hthis
          subst hthis
          exact ⟨createHunk_status _ _ _ _, by rw [createHunk_lines]; exact hany⟩
    · rw [if_neg hany] at r1 r2 r3 hsp
      have hany2 : s.currentHunk.any isChangeLine = false := by
        cases h2 : s.currentHunk.any isChangeLine
        · rfl
        · exact absurd h2 hany
      refine ⟨?_, ?_, fun h0 => absurd h0 hcb, ?_⟩
      · rw [hsp, r1, r2, List.append_nil, changesOf_nil_of_any_false hany2,
          List.append_nil]
      · rw [hsp, r3]
      · intro h hmem
        rw [hsp, r1] at hmem
        exact hh h hmem
  · have hsp : splitPhase line s = s := by rw [splitPhase, if_neg hcond]
    rw [hsp]
    exact ⟨rfl, rfl, fun _ => rfl, hh⟩

theorem trimLeadPhase_props (s : HunkBuildState)
    (hcb : s.inChangeBlock = false → changesOf s.currentHunk = []) :
    (trimLeadPhase s).hunks = s.hunks
    ∧ changesOf (trimLeadPhase s).currentHunk = changesOf s.currentHunk
    ∧ (trimLeadPhase s).inChangeBlock = s.inChangeBlock := by
  unfold trimLeadPhase
  by_cases hcond : s.inChangeBlock = false ∧ s.currentHunk ≠ []
  · rw [if_pos hcond]
    cases hlast : s.currentHunk.getLast? with
    | none => exact ⟨rfl, rfl, rfl⟩
    | some lc =>
      have hmem : lc ∈ s.currentHunk :=
        List.mem_of_mem_getLast? (show lc ∈ s.currentHunk.getLast? by rw [hlast]; rfl)
      have hnil : changesOf s.currentHunk = [] := hcb hcond.1
      have hlc : isChangeLine lc = false := by
        have := (List.filter_eq_nil.1 hnil) lc hmem
        cases h2 : isChangeLine lc
        · rfl
        · exact absurd h2 this
      refine ⟨rfl, ?_, rfl⟩
      rw [hnil]
      simp [changesOf, hlc]
  · rw [if_neg hcond]
    exact ⟨rfl, rfl, rfl⟩

theorem startPhase_props (line : DiffLine) (s : HunkBuildState) :
    (startPhase line s).hunks = s.hunks
    ∧ (startPhase line s).currentHunk = s.currentHunk
    ∧ (startPhase line s).inChangeBlock = s.inChangeBlock := by
  unfold startPhase
  split <;> exact ⟨rfl, rfl, rfl⟩

theorem pushLinePhase_props (line : DiffLine) (s : HunkBuildState) :
    (pushLinePhase line s).hunks = s.hunks
    ∧ (pushLinePhase line s).currentHunk = s.currentHunk ++ [line]
    ∧ (pushLinePhase line s).inChangeBlock = true := ⟨rfl, rfl, rfl⟩

theorem hunkStep_inv (pre : List DiffLine) (line : DiffLine) (s : HunkBuildState)
    (h : StateInv pre s) : StateInv (pre ++ [line]) (hunkStep s line) := by
  obtain ⟨hsum, hcb, hh⟩ := h
  unfold hunkStep
  by_cases hc : isChangeLine line = true
  · rw [if_pos hc]
    obtain ⟨e1, e2, e0, e3⟩ := splitPhase_props line s hh
    have hcb2 : (splitPhase line s).inChangeBlock = false →
        changesOf (splitPhase line s).currentHunk = [] := by
      intro h0
      rw [e2] at h0
      rw [e0 h0]
      exact hcb h0
    obtain ⟨f1, f2, f3⟩ := trimLeadPhase_props (splitPhase line s) hcb2
    obtain ⟨g1, g2, g3⟩ := startPhase_props line (trimLeadPhase (splitPhase line s))
    obtain ⟨p1, p2, p3⟩ :=
      pushLinePhase_props line (startPhase line (trimLeadPhase (splitPhase line s)))
    refine ⟨?_, ?_, ?_⟩
    · rw [p1, p2, g1, g2, f1, changesOf_append]
      have hline : changesOf [line] = [line] := by simp [changesOf, hc]
      rw [hline, changesOf_append]
      have hline2 : changesOf [line] = [line] := by simp [changesOf, hc]
      rw [hline2, f2, ← List.append_assoc, e1, hsum]
    · rw [p3]
      intro h0
      exact absurd h0 (by simp)
    · rw [p1, g1, f1]
      exact e3
  · rw [if_neg hc]
    have hcFalse : isChangeLine line = false := by
      cases h2 : isChangeLine line
      · rfl
      · exact absurd h2 hc
    have hlineNil : changesOf [line] = [] := by simp [changesOf, hcFalse]
    have hpre : changesOf (pre ++ [line]) = changesOf pre := by
      rw [changesOf_append, hlineNil, List.append_nil]
    by_cases hbl : isBlank line.content = true
    · rw [if_pos hbl]
      refine ⟨?_, ?_, hh⟩
      · show hunksChanges s.hunks ++ changesOf (s.currentHunk ++ [line]) = _
        rw [changesOf_append, hlineNil, List.append_nil, hsum, hpre]
      · intro h0
        show changesOf (s.currentHunk ++ [line]) = []
        rw [changesOf_append, hlineNil, List.append_nil]
        exact hcb h0
    · rw [if_neg hbl]
      by_cases hicb : s.inChangeBlock = true
      · rw [if_pos hicb]
        unfold flushPhase
        by_cases hany : (s.currentHunk ++ [line]).any isChangeLine = true
        · rw [if_pos hany]
          refine ⟨?_, fun _ => rfl, ?_⟩
          · show hunksChanges (s.hunks ++
                [createHunk s.hunkId s.hunkStartOld s.hunkStartNew
                  (s.currentHunk ++ [line])]) ++ changesOf [] = _
            rw [hunksChanges_append, createHunk_lines, changesOf_append, hlineNil,
              List.append_nil, hpre]
            show hunksChanges s.hunks ++ changesOf s.currentHunk ++ [] = changesOf pre
            rw [List.append_nil, hsum]
          · intro h hmem
            rcases List.mem_append.1 hmem with hold | hthis
            · exact hh h hold
            · simp only [List.mem_singleton] at hthis
              subst hthis
              exact ⟨createHunk_status _ _ _ _, by rw [createHunk_lines]; exact hany⟩
        · rw [if_neg hany]
          have hany2 : (s.currentHunk ++ [line]).any isChangeLine = false := by
            cases h2 : (s.currentHunk ++ [line]).any isChangeLine
            · rfl
            · exact absurd h2 hany
          have hnil : changesOf (s.currentHunk ++ [line]) = [] :=
            changesOf_nil_of_any_false hany2
          rw [changesOf_append, hlineNil, List.append_nil] at hnil
          refine ⟨?_, fun _ => rfl, hh⟩
          show hunksChanges s.hunks ++ changesOf [] = _
          rw [hpre, ← hsum, hnil]
          rfl
      · rw [if_neg hicb]
        refine ⟨?_, ?_, hh⟩
        · show hunksChanges s.hunks ++ changesOf (s.currentHunk ++ [line]) = _
          rw [changesOf_append, hlineNil, List.append_nil, hsum, hpre]
        · intro h0
          show changesOf (s.currentHunk ++ [line]) = []
          rw [changesOf_append, hlineNil, List.append_nil]
          exact hcb h0

theorem foldl_hunkStep_inv :
    ∀ (ls pre : List DiffLine) (s : HunkBuildState), StateInv pre s →
      StateInv (pre ++ ls) (ls.foldl hunkStep s)
  | [], pre, s, h => by simpa using h
  | l :: t, pre, s, h => by
    have := foldl_hunkStep_inv t (pre ++ [l]) (hunkStep s l) (hunkStep_inv pre l s h)
    simpa [List.append_assoc] using this

theorem stateInv_init : StateInv [] ⟨[], [], 0, 0, 0, false, false⟩ := by
  refine ⟨rfl, fun _ => rfl, ?_⟩
  intro h hmem
  simp at hmem

theorem computeHunks_unfold (o c : String) :
    computeHunks o c =
      if computeLineDiff o c = [] then []
      else finalizeHunks ((computeLineDiff o c).foldl hunkStep ⟨[], [], 0, 0, 0, false, false⟩) :=
  rfl

theorem computeHunks_inv (o c : String) :
    StateInv (computeLineDiff o c)
      ((computeLineDiff o c).foldl hunkStep ⟨[], [], 0, 0, 0, false, false⟩) := by
  have := foldl_hunkStep_inv (computeLineDiff o c) [] ⟨[], [], 0, 0, 0, false, false⟩
    stateInv_init
  simpa using this

theorem computeHunks_changes (o c : String) :
    hunksChanges (computeHunks o c) = changesOf (computeLineDiff o c) := by
  rw [computeHunks_unfold]
  by_cases hd : computeLineDiff o c = []
  · rw [if_pos hd, hd]; rfl
  · rw [if_neg hd]
    obtain ⟨hsum, hcb, hh⟩ := computeHunks_inv o c
    unfold finalizeHunks
    by_cases hg : ((computeLineDiff o c).foldl hunkStep
        ⟨[], [], 0, 0, 0, false, false⟩).currentHunk ≠ [] ∧
        ((computeLineDiff o c).foldl hunkStep
        ⟨[], [], 0, 0, 0, false, false⟩).currentHunk.any isChangeLine = true
    · rw [if_pos hg, hunksChanges_append, createHunk_lines, hsum]
    · rw [if_neg hg]
      rw [← hsum]
      have hnil : changesOf ((computeLineDiff o c).foldl hunkStep
          ⟨[], [], 0, 0, 0, false, false⟩).currentHunk = [] := by
        rcases Decidable.not_and_iff_or_not.1 hg with hcur | hany
        · have : ((computeLineDiff o c).foldl hunkStep
              ⟨[], [], 0, 0, 0, false, false⟩).currentHunk = [] := by
            by_contra hne
            exact hcur hne
          rw [this]; rfl
        · apply changesOf_nil_of_any_false
          cases h2 : ((computeLineDiff o c).foldl hunkStep
              ⟨[], [], 0, 0, 0, false, false⟩).currentHunk.any isChangeLine
          · rfl
          · exact absurd h2 hany
      rw [hnil, List.append_nil]

theorem computeHunks_pending_changed (o c : String) :
    ∀ h ∈ computeHunks o c,
      h.status = HunkStatus.pending ∧ h.lines.any isChangeLine = true := by
  rw [computeHunks_unfold]
  by_cases hd : computeLineDiff o c = []
  · rw [if_pos hd]; intro h hmem; simp at hmem
  · rw [if_neg hd]
    obtain ⟨hsum, hcb, hh⟩ := computeHunks_inv o c
    unfold finalizeHunks
    by_cases hg : ((computeLineDiff o c).foldl hunkStep
        ⟨[], [], 0, 0, 0, false, false⟩).currentHunk ≠ [] ∧
        ((computeLineDiff o c).foldl hunkStep
        ⟨[], [], 0, 0, 0, false, false⟩).currentHunk.any isChangeLine = true
    · rw [if_pos hg]
      intro h hmem
      rcases List.mem_append.1 hmem with hold | hthis
      · exact hh h hold
      · simp only [List.mem_singleton] at hthis
        subst hthis
        exact ⟨createHunk_status _ _ _ _, by rw [createHunk_lines]; exact hg.2⟩
    · rw [if_neg hg]
      exact hh

theorem computeHunks_nil_of_no_change (o c : String)
    (h : changesOf (computeLineDiff o c) = []) : computeHunks o c = [] := by
  cases hres : computeHunks o c with
  | nil => rfl
  | cons h0 t =>
    exfalso
    have hmem : h0 ∈ computeHunks o c := by rw [hres]; exact List.mem_cons_self h0 t
    obtain ⟨_, hany⟩ := computeHunks_pending_changed o c h0 hmem
    obtain ⟨l, hl, hcl⟩ := List.any_eq_true.1 hany
    have hlin : l ∈ hunksChanges (computeHunks o c) := by
      unfold hunksChanges
      apply List.mem_join.2
      refine ⟨changesOf h0.lines, ?_, ?_⟩
      · exact List.mem_map_of_mem _ hmem
      · exact List.mem_filter.2 ⟨hl, hcl⟩
    rw [computeHunks_changes, h] at hlin
    simp at hlin

theorem computeHunks_self (c : String) : computeHunks c c = [] := by
  apply computeHunks_nil_of_no_change
  rw [changesOf, List.filter_eq_nil]
  intro l hl
  have := computeLineDiff_self_context c l hl
  simp [isChangeLine, this]

/-! ### Lemmas: applyHunkDecisions -/

theorem lineMatches_eq (hl l : DiffLine) : lineMatches hl l = decide (hl = l) := by
  rw [lineMatches, decide_eq_decide]
  cases hl with
  | mk t1 c1 o1 n1 =>
    cases l with
    | mk t2 c2 o2 n2 =>
      simp only [DiffLine.mk.injEq]

theorem matcher_eq (l : DiffLine) :
    (fun h : Hunk => h.lines.any (fun hl => lineMatches hl l))
      = (fun h : Hunk => h.lines.any (fun hl => decide (hl = l))) := by
  funext h
  congr 1
  funext hl
  exact lineMatches_eq hl l

/-- The line-by-line rebuild of `applyHunkDecisions`, with the structural
four-field match rewritten as plain equality of `DiffLine` values. -/
def walkPick (hunks : List Hunk) (line : DiffLine) : Option String :=
  match hunks.find? (fun hk => hk.lines.any (fun hl => decide (hl = line))) with
  | some hk =>
    match line.type with
    | LineType.context => some line.content
    | LineType.added =>
      if hk.status = HunkStatus.accepted ∨ hk.status = HunkStatus.pending then
        some line.content
      else none
    | LineType.removed =>
      if hk.status = HunkStatus.rejected then some line.content else none
  | none =>
    match line.type with
    | LineType.context => some line.content
    | LineType.added => none
    | LineType.removed => none

theorem applyHunkDecisions_mixed (o c : String) (hunks : List Hunk)
    (h1 : hunks.all (fun h => decide (h.status = HunkStatus.accepted)) = false)
    (h2 : hunks.all (fun h => decide (h.status = HunkStatus.rejected)) = false) :
    applyHunkDecisions o c hunks
      = joinLines ((computeLineDiff o c).filterMap (walkPick hunks)) := by
  rw [applyHunkDecisions, if_neg (by rw [h1]; simp), if_neg (by rw [h2]; simp)]
  show joinLines ((computeLineDiff o c).filterMap (fun line =>
    match line.type with
    | LineType.context => some line.content
    | LineType.added =>
      match hunks.find? (fun h => h.lines.any (fun hl => lineMatches hl line)) with
      | some hk =>
        if hk.status = HunkStatus.accepted ∨ hk.status = HunkStatus.pending then
          some line.content
        else none
      | none => none
    | LineType.removed =>
      match hunks.find? (fun h => h.lines.any (fun hl => lineMatches hl line)) with
      | some hk => if hk.status = HunkStatus.rejected then some line.content else none
      | none => none)) = _
  congr 1
  apply List.filterMap_congr
  intro line hline
  rw [matcher_eq line]
  unfold walkPick
  cases hfind : hunks.find? (fun hk => hk.lines.any (fun hl => decide (hl = line))) with
  | none => cases line.type <;> rfl
  | some hk => cases line.type <;> rfl

theorem find?_eq_container (l : DiffLine) (hc : isChangeLine l = true) :
    ∀ (hs : List Hunk), (hunksChanges hs).Nodup →
      ∀ h ∈ hs, l ∈ h.lines →
        hs.find? (fun hk => hk.lines.any (fun x => decide (x = l))) = some h := by
  intro hs
  induction hs with
  | nil => intro _ h hmem; simp at hmem
  | cons h0 rest ih =>
    intro hnd h hmem hl
    rw [hunksChanges_cons, List.nodup_append] at hnd
    by_cases hp : h0.lines.any (fun x => decide (x = l)) = true
    · have hl0 : l ∈ h0.lines := by
        obtain ⟨x, hx, hxe⟩ := List.any_eq_true.1 hp
        have : x = l := of_decide_eq_true hxe
        rw [← this]; exact hx
      have hh0 : h = h0 := by
        rcases List.mem_cons.1 hmem with he | hrest
        · exact he
        · exfalso
          have hin1 : l ∈ changesOf h0.lines := List.mem_filter.2 ⟨hl0, hc⟩
          have hin2 : l ∈ hunksChanges rest := by
            unfold hunksChanges
            apply List.mem_join.2
            exact ⟨changesOf h.lines, List.mem_map_of_mem _ hrest,
              List.mem_filter.2 ⟨hl, hc⟩⟩
          exact hnd.2.2 hin1 hin2
      rw [hh0]
      simp [List.find?, hp]
    · have hp2 : h0.lines.any (fun x => decide (x = l)) = false := by
        cases hx : h0.lines.any (fun x => decide (x = l))
        · rfl
        · exact absurd hx hp
      have hne : h ≠ h0 := by
        intro he
        subst he
        exact hp (List.any_eq_true.2 ⟨l, hl, decide_eq_true rfl⟩)
      have hrest : h ∈ rest := by
        rcases List.mem_cons.1 hmem with he | hr
        · exact absurd he hne
        · exact hr
      rw [List.find?]
      rw [hp2]
      exact ih hnd.2.1 h hrest hl

theorem container_unique (hs : List Hunk) (hnd : (hunksChanges hs).Nodup)
    (l : DiffLine) (hc : isChangeLine l = true) (h1 : Hunk) (h2 : Hunk)
    (hm1 : h1 ∈ hs) (hm2 : h2 ∈ hs) (hl1 : l ∈ h1.lines) (hl2 : l ∈ h2.lines) :
    h1 = h2 := by
  have e1 := find?_eq_container l hc hs hnd h1 hm1 hl1
  have e2 := find?_eq_container l hc hs hnd h2 hm2 hl2
  rw [e1] at e2
  exact Option.some.injEq _ _ ▸ e2

theorem changes_coverage (o c : String) (l : DiffLine)
    (hl : l ∈ computeLineDiff o c) (hc : isChangeLine l = true) :
    ∃ h ∈ computeHunks o c, l ∈ h.lines := by
  have hmem : l ∈ hunksChanges (computeHunks o c) := by
    rw [computeHunks_changes]
    exact List.mem_filter.2 ⟨hl, hc⟩
  unfold hunksChanges at hmem
  obtain ⟨ls, hls, hlin⟩ := List.mem_join.1 hmem
  obtain ⟨h, hh, he⟩ := List.mem_map.1 hls
  refine ⟨h, hh, ?_⟩
  rw [← he] at hlin
  exact (List.mem_filter.1 hlin).1

theorem hunksChanges_nodup (o c : String) :
    (hunksChanges (computeHunks o c)).Nodup := by
  rw [computeHunks_changes]
  exact (computeLineDiff_nodup o c).filter _

theorem hunk_lines_sub_diff (o c : String) (h : Hunk) (hmem : h ∈ computeHunks o c)
    (l : DiffLine) (hl : l ∈ h.lines) (hc : isChangeLine l = true) :
    l ∈ computeLineDiff o c := by
  have : l ∈ hunksChanges (computeHunks o c) := by
    unfold hunksChanges
    exact List.mem_join.2 ⟨changesOf h.lines, List.mem_map_of_mem _ hmem,
      List.mem_filter.2 ⟨hl, hc⟩⟩
  rw [computeHunks_changes] at this
  exact (List.mem_filter.1 this).1

theorem diff_new_side (o c : String) :
    joinLines (((computeLineDiff o c).filter keepNewSide).map DiffLine.content) = c := by
  rw [computeLineDiff_unfold,
    backtrack_filter_new _ _ _ _ _ _ (le_refl _) (le_refl _) (le_refl _),
    List.take_length, joinLines_splitLines]

theorem diff_old_side (o c : String) :
    joinLines (((computeLineDiff o c).filter keepOldSide).map DiffLine.content) = o := by
  rw [computeLineDiff_unfold,
    backtrack_filter_old _ _ _ _ _ _ (le_refl _) (le_refl _) (le_refl _),
    List.take_length, joinLines_splitLines]

theorem filterMap_if_eq {α β : Type _} (p : α → Bool) (c : α → β) (l : List α) :
    l.filterMap (fun a => if p a = true then some (c a) else none)
      = (l.filter p).map c := by
  induction l with
  | nil => rfl
  | cons a t ih =>
    by_cases hp : p a = true
    · rw [List.filterMap_cons, if_pos hp, List.filter_cons, if_pos hp, List.map_cons, ih]
    · rw [List.filterMap_cons, if_neg hp, List.filter_cons, if_neg hp, ih]

theorem hunksChanges_map (hs : List Hunk) (g : Hunk → Hunk)
    (hg : ∀ x, (g x).lines = x.lines) :
    hunksChanges (hs.map g) = hunksChanges hs := by
  unfold hunksChanges
  rw [List.map_map]
  have hfun : ((fun h : Hunk => changesOf h.lines) ∘ g)
      = (fun h : Hunk => changesOf h.lines) := by
    funext x
    show changesOf (g x).lines = changesOf x.lines
    rw [hg]
  rw [hfun]

theorem bool_not_true_eq_false {b : Bool} (h : ¬b = true) : b = false := by
  cases b
  · rfl
  · exact absurd rfl h

theorem all_false_of_mem {α : Type _} {p : α → Bool} {l : List α} {x : α}
    (hx : x ∈ l) (hp : p x = false) : l.all p = false := by
  cases hall : l.all p
  · rfl
  · exfalso
    have := List.all_eq_true.1 hall x hx
    rw [hp] at this
    exact Bool.false_ne_true this

theorem type_context_of_not_change (l : DiffLine) (h : ¬isChangeLine l = true) :
    l.type = LineType.context := by
  rcases l with ⟨ty, cont, ol, nl⟩
  cases ty
  · rfl
  · exact absurd (by rfl) h
  · exact absurd (by rfl) h

theorem applyHunkDecisions_reject_pick (o c : String) (h : Hunk)
    (hmem : h ∈ computeHunks o c)
    (hid : ∀ h2 ∈ computeHunks o c, h2.id = h.id → h2 = h) :
    applyHunkDecisions o c (rejectDecisions (computeHunks o c) h.id)
      = joinLines ((computeLineDiff o c).filterMap (fun l =>
          match l.type with
          | LineType.context => some l.content
          | LineType.added => if l ∈ h.lines then none else some l.content
          | LineType.removed => if l ∈ h.lines then some l.content else none)) := by
  have hg : ∀ x : Hunk,
      ((fun h2 : Hunk => if h2.id = h.id then { h2 with status := HunkStatus.rejected }
        else h2) x).lines = x.lines := by
    intro x
    show (if x.id = h.id then { x with status := HunkStatus.rejected } else x).lines
      = x.lines
    by_cases hx : x.id = h.id
    · rw [if_pos hx]
    · rw [if_neg hx]
  have hds : rejectDecisions (computeHunks o c) h.id
      = (computeHunks o c).map
          (fun h2 => if h2.id = h.id then { h2 with status := HunkStatus.rejected }
            else h2) := rfl
  have hndds : (hunksChanges (rejectDecisions (computeHunks o c) h.id)).Nodup := by
    rw [hds, hunksChanges_map _ _ hg]
    exact hunksChanges_nodup o c
  have hmemcopy : ({ h with status := HunkStatus.rejected } : Hunk)
      ∈ rejectDecisions (computeHunks o c) h.id := by
    have h1 : (if h.id = h.id then { h with status := HunkStatus.rejected } else h)
        ∈ rejectDecisions (computeHunks o c) h.id :=
      List.mem_map_of_mem _ hmem
    rw [if_pos rfl] at h1
    exact h1
  have hacc : (rejectDecisions (computeHunks o c) h.id).all
      (fun x => decide (x.status = HunkStatus.accepted)) = false :=
    all_false_of_mem hmemcopy (by simp)
  by_cases hrej : (rejectDecisions (computeHunks o c) h.id).all
      (fun x => decide (x.status = HunkStatus.rejected)) = true
  · have hcov : ∀ l ∈ computeLineDiff o c, isChangeLine l = true → l ∈ h.lines := by
      intro l hl hcl
      obtain ⟨h2, hm2, hl2⟩ := changes_coverage o c l hl hcl
      by_cases hidm : h2.id = h.id
      · rw [hid h2 hm2 hidm] at hl2
        exact hl2
      · exfalso
        have hcopy : h2 ∈ rejectDecisions (computeHunks o c) h.id := by
          have h1 : (if h2.id = h.id then { h2 with status := HunkStatus.rejected } else h2)
              ∈ rejectDecisions (computeHunks o c) h.id :=
            List.mem_map_of_mem _ hm2
          rw [if_neg hidm] at h1
          exact h1
        have hst := List.all_eq_true.1 hrej h2 hcopy
        have hpend := (computeHunks_pending_changed o c h2 hm2).1
        rw [hpend] at hst
        simp at hst
    rw [applyHunkDecisions, if_neg (by rw [hacc]; simp), if_pos hrej]
    have hpt : ∀ l ∈ computeLineDiff o c,
        (fun l : DiffLine =>
          (match l.type with
          | LineType.context => some l.content
          | LineType.added => if l ∈ h.lines then none else some l.content
          | LineType.removed => if l ∈ h.lines then some l.content else none)) l
        = (fun l : DiffLine =>
            if keepOldSide l = true then some (DiffLine.content l) else none) l := by
      intro l hl
      rcases l with ⟨ty, cont, ol, nl⟩
      cases ty
      · rfl
      · have hin := hcov ⟨LineType.added, cont, ol, nl⟩ hl rfl
        simp [keepOldSide, hin]
      · have hin := hcov ⟨LineType.removed, cont, ol, nl⟩ hl rfl
        simp [keepOldSide, hin]
    rw [List.filterMap_congr hpt, filterMap_if_eq keepOldSide DiffLine.content]
    exact (diff_old_side o c).symm
  · have hrejF := bool_not_true_eq_false hrej
    rw [applyHunkDecisions_mixed o c _ hacc hrejF]
    congr 1
    apply List.filterMap_congr
    intro l hl
    rw [walkPick]
    by_cases hcl : isChangeLine l = true
    · obtain ⟨h2, hm2, hl2⟩ := changes_coverage o c l hl hcl
      have hmemc : (if h2.id = h.id then { h2 with status := HunkStatus.rejected } else h2)
          ∈ rejectDecisions (computeHunks o c) h.id :=
        List.mem_map_of_mem _ hm2
      have hlin2 : l ∈ (if h2.id = h.id then { h2 with status := HunkStatus.rejected }
          else h2).lines := by
        have he : (if h2.id = h.id then { h2 with status := HunkStatus.rejected }
            else h2).lines = h2.lines := hg h2
        rw [he]
        exact hl2
      have hfind : (rejectDecisions (computeHunks o c) h.id).find?
          (fun hk => hk.lines.any (fun x => decide (x = l)))
          = some (if h2.id = h.id then
              { h2 with status := HunkStatus.rejected } else h2) :=
        find?_eq_container l hcl _ hndds _ hmemc hlin2
      rw [hfind]
      by_cases hin : l ∈ h.lines
      · have hh2 : h2 = h := container_unique (computeHunks o c) (hunksChanges_nodup o c)
          l hcl h2 h hm2 hmem hl2 hin
        subst hh2
        rw [if_pos rfl]
        rcases l with ⟨ty, cont, ol, nl⟩
        cases ty
        · rfl
        · simp [hin]
        · simp [hin]
      · have hne : h2 ≠ h := fun he => hin (he ▸ hl2)
        have hnid : h2.id ≠ h.id := fun he => hne (hid h2 hm2 he)
        have hpend := (computeHunks_pending_changed o c h2 hm2).1
        rw [if_neg hnid]
        rcases l with ⟨ty, cont, ol, nl⟩
        cases ty
        · rfl
        · simp [hin, hpend]
        · simp [hin, hpend]
    · have hctx := type_context_of_not_change l hcl
      rcases l with ⟨ty, cont, ol, nl⟩
      cases ty
      · cases (rejectDecisions (computeHunks o c) h.id).find?
          (fun hk => hk.lines.any (fun x => decide (x = ⟨LineType.context, cont, ol, nl⟩))) <;> rfl
      · exact absurd hctx (by simp)
      · exact absurd hctx (by simp)

theorem applyHunkDecisions_accept_pick (o c : String) (h : Hunk)
    (hmem : h ∈ computeHunks o c)
    (hid : ∀ h2 ∈ computeHunks o c, h2.id = h.id → h2 = h) :
    applyHunkDecisions o c (acceptDecisions (computeHunks o c) h.id)
      = joinLines ((computeLineDiff o c).filterMap (fun l =>
          match l.type with
          | LineType.context => some l.content
          | LineType.added => if l ∈ h.lines then some l.content else none
          | LineType.removed => if l ∈ h.lines then none else some l.content)) := by
  have hg : ∀ x : Hunk,
      ((fun h2 : Hunk => if h2.id = h.id then { h2 with status := HunkStatus.accepted }
        else { h2 with status := HunkStatus.rejected }) x).lines = x.lines := by
    intro x
    show (if x.id = h.id then { x with status := HunkStatus.accepted }
      else { x with status := HunkStatus.rejected }).lines = x.lines
    by_cases hx : x.id = h.id
    · rw [if_pos hx]
    · rw [if_neg hx]
  have hndds : (hunksChanges (acceptDecisions (computeHunks o c) h.id)).Nodup := by
    rw [show acceptDecisions (computeHunks o c) h.id
        = (computeHunks o c).map
            (fun h2 => if h2.id = h.id then { h2 with status := HunkStatus.accepted }
              else { h2 with status := HunkStatus.rejected }) from rfl,
      hunksChanges_map _ _ hg]
    exact hunksChanges_nodup o c
  have hmemcopy : ({ h with status := HunkStatus.accepted } : Hunk)
      ∈ acceptDecisions (computeHunks o c) h.id := by
    have h1 : (if h.id = h.id then { h with status := HunkStatus.accepted }
        else { h with status := HunkStatus.rejected })
        ∈ acceptDecisions (computeHunks o c) h.id :=
      List.mem_map_of_mem _ hmem
    rw [if_pos rfl] at h1
    exact h1
  have hrej : (acceptDecisions (computeHunks o c) h.id).all
      (fun x => decide (x.status = HunkStatus.rejected)) = false :=
    all_false_of_mem hmemcopy (by simp)
  by_cases hacc : (acceptDecisions (computeHunks o c) h.id).all
      (fun x => decide (x.status = HunkStatus.accepted)) = true
  · have hcov : ∀ l ∈ computeLineDiff o c, isChangeLine l = true → l ∈ h.lines := by
      intro l hl hcl
      obtain ⟨h2, hm2, hl2⟩ := changes_coverage o c l hl hcl
      by_cases hidm : h2.id = h.id
      · rw [hid h2 hm2 hidm] at hl2
        exact hl2
      · exfalso
        have h1 : (if h2.id = h.id then { h2 with status := HunkStatus.accepted }
            else { h2 with status := HunkStatus.rejected })
            ∈ acceptDecisions (computeHunks o c) h.id :=
          List.mem_map_of_mem _ hm2
        rw [if_neg hidm] at h1
        have hst := List.all_eq_true.1 hacc _ h1
        simp at hst
    rw [applyHunkDecisions, if_pos hacc]
    have hpt : ∀ l ∈ computeLineDiff o c,
        (fun l : DiffLine =>
          (match l.type with
          | LineType.context => some l.content
          | LineType.added => if l ∈ h.lines then some l.content else none
          | LineType.removed => if l ∈ h.lines then none else some l.content)) l
        = (fun l : DiffLine =>
            if keepNewSide l = true then some (DiffLine.content l) else none) l := by
      intro l hl
      rcases hty : l with ⟨ty, cont, ol, nl⟩
      cases ty
      · rfl
      · have hin := hcov l hl (by rw [hty]; rfl)
        rw [hty] at hin
        simp [keepNewSide, hin]
      · have hin := hcov l hl (by rw [hty]; rfl)
        rw [hty] at hin
        simp [keepNewSide, hin]
    rw [List.filterMap_congr hpt, filterMap_if_eq keepNewSide DiffLine.content]
    exact (diff_new_side o c).symm
  · have haccF := bool_not_true_eq_false hacc
    rw [applyHunkDecisions_mixed o c _ haccF hrej]
    congr 1
    apply List.filterMap_congr
    intro l hl
    rw [walkPick]
    by_cases hcl : isChangeLine l = true
    · obtain ⟨h2, hm2, hl2⟩ := changes_coverage o c l hl hcl
      have hmemc : (if h2.id = h.id then { h2 with status := HunkStatus.accepted }
          else { h2 with status := HunkStatus.rejected })
          ∈ acceptDecisions (computeHunks o c) h.id :=
        List.mem_map_of_mem _ hm2
      have hlin2 : l ∈ (if h2.id = h.id then { h2 with status := HunkStatus.accepted }
          else { h2 with status := HunkStatus.rejected }).lines := by
        have he : (if h2.id = h.id then { h2 with status := HunkStatus.accepted }
            else { h2 with status := HunkStatus.rejected }).lines = h2.lines := hg h2
        rw [he]
        exact hl2
      have hfind : (acceptDecisions (computeHunks o c) h.id).find?
          (fun hk => hk.lines.any (fun x => decide (x = l)))
          = some (if h2.id = h.id then { h2 with status := HunkStatus.accepted }
              else { h2 with status := HunkStatus.rejected }) :=
        find?_eq_container l hcl _ hndds _ hmemc hlin2
      rw [hfind]
      by_cases hin : l ∈ h.lines
      · have hh2 : h2 = h := container_unique (computeHunks o c) (hunksChanges_nodup o c)
          l hcl h2 h hm2 hmem hl2 hin
        subst hh2
        rw [if_pos rfl]
        rcases l with ⟨ty, cont, ol, nl⟩
        cases ty
        · rfl
        · simp [hin]
        · simp [hin]
      · have hne : h2 ≠ h := fun he => hin (he ▸ hl2)
        have hnid : h2.id ≠ h.id := fun he => hne (hid h2 hm2 he)
        rw [if_neg hnid]
        rcases l with ⟨ty, cont, ol, nl⟩
        cases ty
        · rfl
        · simp [hin]
        · simp [hin]
    · rcases l with ⟨ty, cont, ol, nl⟩
      cases ty
      · cases (acceptDecisions (computeHunks o c) h.id).find?
          (fun hk => hk.lines.any
            (fun x => decide (x = ⟨LineType.context, cont, ol, nl⟩))) <;> rfl
      · exact absurd rfl hcl
      · exact absurd rfl hcl

/-! ### Lemmas: manager state operations -/

theorem filter_join_comm {α : Type _} (p : α → Bool) :
    ∀ L : List (List α), (L.join).filter p = (L.map (fun l => l.filter p)).join := by
  intro L
  induction L with
  | nil => rfl
  | cons x t ih => simp [List.filter_append, ih]

theorem assocGet_map_overwrite (k v : String) :
    ∀ m : List (String × String), m.any (fun p => decide (p.1 = k)) = true →
      assocGet (m.map (fun p => if p.1 = k then (k, v) else p)) k = some v := by
  intro m
  induction m with
  | nil => intro hany; simp at hany
  | cons p t ih =>
    intro hany
    by_cases hp : p.1 = k
    · rw [List.map_cons, if_pos hp, assocGet, List.find?_cons_of_pos _ (by simp)]
      rfl
    · rw [List.map_cons, if_neg hp, assocGet,
        List.find?_cons_of_neg _ (by simp [hp])]
      show assocGet (t.map (fun p => if p.1 = k then (k, v) else p)) k = some v
      apply ih
      rcases List.any_eq_true.1 hany with ⟨x, hx, hxe⟩
      rcases List.mem_cons.1 hx with he | ht
      · exfalso
        subst he
        exact hp (of_decide_eq_true hxe)
      · exact List.any_eq_true.2 ⟨x, ht, hxe⟩

theorem assocGet_append_last (k v : String) :
    ∀ t : List (String × String), (∀ x ∈ t, ¬x.1 = k) →
      assocGet (t ++ [(k, v)]) k = some v := by
  intro t
  induction t with
  | nil =>
    intro _
    rw [List.nil_append, assocGet, List.find?_cons_of_pos _ (by simp)]
    rfl
  | cons p t ih =>
    intro hnone
    rw [List.cons_append, assocGet,
      List.find?_cons_of_neg _ (by simp [hnone p (List.mem_cons_self p t)])]
    show assocGet (t ++ [(k, v)]) k = some v
    exact ih (fun x hx => hnone x (List.mem_cons_of_mem p hx))

theorem assocGet_assocSet (m : List (String × String)) (k v : String) :
    assocGet (assocSet m k v) k = some v := by
  rw [assocSet]
  by_cases hany : m.any (fun p => decide (p.1 = k)) = true
  · rw [if_pos hany]
    exact assocGet_map_overwrite k v m hany
  · rw [if_neg hany]
    apply assocGet_append_last
    intro x hx he
    exact hany (List.any_eq_true.2 ⟨x, hx, decide_eq_true he⟩)

theorem find?_filter_filePath (l : List PendingFile) (fp : String) :
    (l.filter (fun f => ¬f.filePath = fp)).find? (fun f => f.filePath = fp) = none := by
  apply List.find?_eq_none.2
  intro x hx
  have h2 := (List.mem_filter.1 hx).2
  simp only [decide_not] at h2
  simp only [decide_eq_true_eq]
  intro he
  rw [he] at h2
  simp at h2

/-! ### Claim theorems -/

/-- C1: for every pair of input strings, joining the `content` of the
`context` + `added` DiffLines of `computeLineDiff oldContent newContent` with
newline reconstructs `newContent` exactly, and joining the `context` +
`removed` contents reconstructs `oldContent` exactly. -/
theorem computeLineDiff_reconstruction (oldContent newContent : String) :
    joinLines (((computeLineDiff oldContent newContent).filter keepNewSide).map
        DiffLine.content) = newContent
    ∧ joinLines (((computeLineDiff oldContent newContent).filter keepOldSide).map
        DiffLine.content) = oldContent :=
  ⟨diff_new_side oldContent newContent, diff_old_side oldContent newContent⟩

/-- C2: the non-context DiffLines collected across the hunks of
`computeHunks`, in hunk order, are exactly the non-context DiffLines of
`computeLineDiff`, in diff order, and those lines are pairwise distinct.
Hence every non-context DiffLine belongs to exactly one hunk, hunks do not
overlap on change lines, and hunks appear in ascending line order. -/
theorem computeHunks_partition (oldContent newContent : String) :
    (((computeHunks oldContent newContent).map Hunk.lines).join).filter isChangeLine
      = (computeLineDiff oldContent newContent).filter isChangeLine
    ∧ ((computeLineDiff oldContent newContent).filter isChangeLine).Nodup := by
  constructor
  · rw [filter_join_comm, List.map_map]
    show hunksChanges (computeHunks oldContent newContent) = _
    rw [computeHunks_changes]
    rfl
  · exact (computeLineDiff_nodup oldContent newContent).filter _

/-- C5: calling `applyHunkDecisionsForFile` on a tracked file that still has a
`pending` hunk is a no-op that reports the warning: the state (disk included)
is returned unchanged and the boolean warning flag is `true`. -/
theorem applyHunkDecisionsForFile_pending_noop (s : ManagerState) (fp : String)
    (f : PendingFile)
    (hfind : s.pendingFiles.find? (fun x => x.filePath = fp) = some f)
    (hp : f.hunks.any (fun h => decide (h.status = HunkStatus.pending)) = true) :
    applyHunkDecisionsForFile s fp = (s, true) := by
  unfold applyHunkDecisionsForFile
  simp only [hfind]
  rw [if_pos hp]

def c5File : PendingFile :=
  { filePath := "c5.md", vaultPath := "c5.md", originalContent := "p",
    currentContent := "q", hunks := computeHunks "p" "q", timestamp := 0 }

def c5State : ManagerState :=
  { pendingFiles := [c5File], pendingEdits := [], originalFileStates := [("c5.md", "p")],
    disk := [("c5.md", "q")] }

theorem applyHunkDecisionsForFile_pending_noop_witness :
    applyHunkDecisionsForFile c5State "c5.md" = (c5State, true) :=
  applyHunkDecisionsForFile_pending_noop c5State "c5.md" c5File (by decide) (by decide)

/-- C6 counterexample: `computeLineDiff "" ""` is not the empty sequence
(JS `''.split('\n')` is `['']`, so the diff is one empty context line). -/
theorem computeLineDiff_empty_not_nil : computeLineDiff "" "" ≠ [] := by decide

/-- C6 (amended): the backtracking loop of `computeLineDiff` always
terminates — its result is independent of the fuel bound once the fuel covers
the remaining `i + j` loop iterations — and `computeLineDiff` applied to
empty content versus empty content yields the single-element sequence holding
one context line with empty content. -/
theorem computeLineDiff_total_empty :
    (∀ (old new : List String) (tbl : List (List Nat)) (fuel fuel2 i j : Nat),
        i + j ≤ fuel → i + j ≤ fuel2 →
        backtrackAux old new tbl fuel i j = backtrackAux old new tbl fuel2 i j)
    ∧ computeLineDiff "" ""
        = [{ type := LineType.context, content := "", oldLine := some 0,
             newLine := some 0 }] := by
  constructor
  · intro old new tbl fuel fuel2 i j h1 h2
    exact backtrack_fuel_stable old new tbl fuel fuel2 i j h1 h2
  · decide

theorem computeLineDiff_total_empty_witness :
    backtrackAux [""] [""] (lcsTable [""] [""]) 2 1 1
      = backtrackAux [""] [""] (lcsTable [""] [""]) 7 1 1 :=
  computeLineDiff_total_empty.1 [""] [""] (lcsTable [""] [""]) 2 7 1 1 (by decide)
    (by decide)

/-- C7: during backtracking, when both `i` and `j` are positive, the current
old and new lines differ and the two backtrack scores tie
(`lcs[i][j-1] = lcs[i-1][j]`), the newer-side move is taken: the added line is
emitted (marked) at this step, before the removed line can be.  For the
single-line replacement `"a"` versus `"b"` the tie is resolved toward the
added move, which backtracking then places after the removed line in the
final sequence. -/
theorem backtrack_tie_prefers_added :
    (∀ (old new : List String) (tbl : List (List Nat)) (fuel i j : Nat),
        0 < i → 0 < j → old.getD (i - 1) "" ≠ new.getD (j - 1) "" →
        lcsAt tbl i (j - 1) = lcsAt tbl (i - 1) j →
        backtrackAux old new tbl (fuel + 1) i j
          = backtrackAux old new tbl fuel i (j - 1) ++
              [{ type := LineType.added, content := new.getD (j - 1) "",
                 oldLine := none, newLine := some (j - 1) }])
    ∧ computeLineDiff "a" "b"
        = [{ type := LineType.removed, content := "a", oldLine := some 0,
             newLine := none },
           { type := LineType.added, content := "b", oldLine := none,
             newLine := some 0 }] := by
  constructor
  · intro old new tbl fuel i j hi hj hne htie
    rw [backtrackAux, if_neg (by rintro ⟨ha, hb⟩; omega),
      if_neg (by rintro ⟨_, _, he⟩; exact hne he),
      if_pos ⟨hj, Or.inr (le_of_eq htie.symm)⟩]
  · decide

theorem backtrack_tie_prefers_added_witness :
    backtrackAux ["a"] ["b"] (lcsTable ["a"] ["b"]) 2 1 1
      = backtrackAux ["a"] ["b"] (lcsTable ["a"] ["b"]) 1 1 0 ++
          [{ type := LineType.added, content := "b", oldLine := none,
             newLine := some 0 }] :=
  backtrack_tie_prefers_added.1 ["a"] ["b"] (lcsTable ["a"] ["b"]) 1 1 1 (by decide)
    (by decide) (by decide) (by decide)

/-- C8: a context line whose trimmed content is empty never closes an open
hunk during the `computeHunks` loop — the step absorbs it into the current
hunk and leaves the finished-hunk list unchanged; and for old `"a\n\nb"`
versus new `"a\n\nc"` computeHunks returns exactly one hunk containing both
the removed and the added line. -/
theorem blank_context_absorbed :
    (∀ (s : HunkBuildState) (l : DiffLine), l.type = LineType.context →
        isBlank l.content = true →
        (hunkStep s l).hunks = s.hunks
          ∧ (hunkStep s l).currentHunk = s.currentHunk ++ [l])
    ∧ (computeHunks "a\n\nb" "a\n\nc").length = 1
    ∧ ((computeHunks "a\n\nb" "a\n\nc").headD (createHunk 0 0 0 [])).lines.filter
          isChangeLine
        = [{ type := LineType.removed, content := "b", oldLine := some 2,
             newLine := none },
           { type := LineType.added, content := "c", oldLine := none,
             newLine := some 2 }] := by
  refine ⟨?_, by decide, by decide⟩
  intro s l h1 h2
  have hc : isChangeLine l = false := by rw [isChangeLine, h1]
  unfold hunkStep
  rw [if_neg (by rw [hc]; simp), if_pos h2]
  exact ⟨rfl, rfl⟩

theorem blank_context_absorbed_witness :
    (hunkStep ⟨[], [], 0, 0, 0, false, false⟩
        { type := LineType.context, content := "", oldLine := some 0,
          newLine := some 0 }).hunks = []
    ∧ (hunkStep ⟨[], [], 0, 0, 0, false, false⟩
        { type := LineType.context, content := "", oldLine := some 0,
          newLine := some 0 }).currentHunk
        = [{ type := LineType.context, content := "", oldLine := some 0,
             newLine := some 0 }] :=
  blank_context_absorbed.1 ⟨[], [], 0, 0, 0, false, false⟩
    { type := LineType.context, content := "", oldLine := some 0, newLine := some 0 }
    rfl (by decide)

/-- C9: in the `computeHunks` loop, a removed line arriving while the open
hunk is inside a change block that has already seen an added line forces a
split: the current hunk is closed and pushed, and the new open hunk starts
from the last context line of the closed hunk when that line is blank, or
from an empty start otherwise (then holding just the removed line).
Consequently an added line followed by a removed line from a different
logical location yields two separate hunks, as for old `"a\n\nb"` versus new
`"a2\n\nb2"`. -/
theorem startPhase_hunks (l : DiffLine) (t : HunkBuildState) :
    (startPhase l t).hunks = t.hunks := by
  unfold startPhase
  split <;> rfl

theorem startPhase_currentHunk (l : DiffLine) (t : HunkBuildState) :
    (startPhase l t).currentHunk = t.currentHunk := by
  unfold startPhase
  split <;> rfl

theorem trimLeadPhase_hunks (t : HunkBuildState) :
    (trimLeadPhase t).hunks = t.hunks := by
  unfold trimLeadPhase
  split
  · cases t.currentHunk.getLast? <;> rfl
  · rfl

theorem trimLeadPhase_skip (t : HunkBuildState) (h : t.inChangeBlock = true) :
    trimLeadPhase t = t := by
  unfold trimLeadPhase
  rw [if_neg]
  rintro ⟨ha, _⟩
  rw [h] at ha
  exact absurd ha (by simp)

theorem removed_after_added_splits :
    (∀ (s : HunkBuildState) (l : DiffLine),
        l.type = LineType.removed → s.hasSeenAdd = true → s.inChangeBlock = true →
        s.currentHunk.any isChangeLine = true →
        (hunkStep s l).hunks
            = s.hunks ++ [createHunk s.hunkId s.hunkStartOld s.hunkStartNew s.currentHunk]
          ∧ (hunkStep s l).currentHunk
              = (match s.currentHunk.getLast? with
                 | some lastLine =>
                   if lastLine.type = LineType.context ∧ isBlank lastLine.content = true
                   then [lastLine, l] else [l]
                 | none => [l]))
    ∧ (computeHunks "a\n\nb" "a2\n\nb2").length = 2 := by
  refine ⟨?_, by decide⟩
  intro s l h1 h2 h3 h4
  have hc : isChangeLine l = true := by rw [isChangeLine, h1]
  unfold hunkStep
  rw [if_pos hc]
  have hsp : splitPhase l s = splitReset (pushCurrent s) s.currentHunk.getLast? := by
    rw [splitPhase, if_pos ⟨h1, h2, h3⟩, if_pos h4]
  rw [hsp]
  have hhunks : ∀ t : HunkBuildState,
      (pushLinePhase l (startPhase l (trimLeadPhase t))).hunks = t.hunks := by
    intro t
    show (startPhase l (trimLeadPhase t)).hunks = t.hunks
    rw [startPhase_hunks, trimLeadPhase_hunks]
  have hcur : ∀ t : HunkBuildState, t.inChangeBlock = true →
      (pushLinePhase l (startPhase l (trimLeadPhase t))).currentHunk
        = t.currentHunk ++ [l] := by
    intro t ht
    show (startPhase l (trimLeadPhase t)).currentHunk ++ [l] = t.currentHunk ++ [l]
    rw [startPhase_currentHunk, trimLeadPhase_skip t ht]
  obtain ⟨q1, q2, q3⟩ := splitReset_props (pushCurrent s) s.currentHunk.getLast?
  constructor
  · rw [hhunks, q1]
    rfl
  · rw [hcur _ (by rw [q3]; exact h3)]
    cases hlast : s.currentHunk.getLast? with
    | none => simp [splitReset]
    | some lastLine =>
      by_cases hbl : lastLine.type = LineType.context ∧ isBlank lastLine.content = true
      · rw [splitReset, if_pos hbl]
        simp [hbl]
      · rw [splitReset, if_neg hbl]
        have hres : (if lastLine.type = LineType.context ∧ isBlank lastLine.content = true
            then [lastLine, l] else [l]) = [l] := if_neg hbl
        simp [hres]

def c9State : HunkBuildState :=
  ⟨[], [{ type := LineType.added, content := "z", oldLine := none, newLine := some 0 }],
    0, 0, 0, true, true⟩

theorem removed_after_added_splits_witness :
    (hunkStep c9State
        { type := LineType.removed, content := "w", oldLine := some 0,
          newLine := none }).hunks
      = [createHunk 0 0 0
          [{ type := LineType.added, content := "z", oldLine := none, newLine := some 0 }]]
    ∧ (hunkStep c9State
        { type := LineType.removed, content := "w", oldLine := some 0,
          newLine := none }).currentHunk
      = [{ type := LineType.removed, content := "w", oldLine := some 0,
           newLine := none }] :=
  removed_after_added_splits.1 c9State
    { type := LineType.removed, content := "w", oldLine := some 0, newLine := none }
    rfl rfl rfl (by decide)

/-- C10: with mixed decisions, `applyHunkDecisions` rebuilds the content by
walking `computeLineDiff originalContent currentContent` and joining with
newline: a context line is always included; an added line is included iff the
first hunk holding a structurally matching line (the four-field match equals
`DiffLine` equality) is `accepted` or `pending`; a removed line is included
iff that hunk is `rejected`; an added or removed line matching no hunk is
omitted (`walkPick` states exactly these rules). -/
theorem applyHunkDecisions_mixed_walk (o c : String) (hunks : List Hunk)
    (h1 : hunks.all (fun h => decide (h.status = HunkStatus.accepted)) = false)
    (h2 : hunks.all (fun h => decide (h.status = HunkStatus.rejected)) = false) :
    applyHunkDecisions o c hunks
      = joinLines ((computeLineDiff o c).filterMap (walkPick hunks)) :=
  applyHunkDecisions_mixed o c hunks h1 h2

def c10Hunks : List Hunk :=
  rejectDecisions (computeHunks "x\ny" "a\nx\ny\na") "hunk-0"

theorem applyHunkDecisions_mixed_walk_witness :
    applyHunkDecisions "x\ny" "a\nx\ny\na" c10Hunks
      = joinLines ((computeLineDiff "x\ny" "a\nx\ny\na").filterMap (walkPick c10Hunks)) :=
  applyHunkDecisions_mixed_walk "x\ny" "a\nx\ny\na" c10Hunks (by decide) (by decide)

/-- C4: rejecting one hunk of a tracked file leaves the file's baseline
(`originalContent`) unchanged, and the content written to disk is the diff
walk that restores the original side (removed lines kept, added dropped) for
every line belonging to the rejected hunk and keeps the prior current side
(added kept, removed dropped) everywhere else, context lines always kept. -/
theorem rejectHunkImmediate_spec (s : ManagerState) (fp : String) (f : PendingFile)
    (h : Hunk)
    (hfind : s.pendingFiles.find? (fun x => x.filePath = fp) = some f)
    (hfile : ∀ f2 ∈ s.pendingFiles, f2.filePath = fp → f2 = f)
    (hhunks : f.hunks = computeHunks f.originalContent f.currentContent)
    (hmem : h ∈ f.hunks)
    (hid : ∀ h2 ∈ f.hunks, h2.id = h.id → h2 = h) :
    applyHunkDecisions f.originalContent f.currentContent (rejectDecisions f.hunks h.id)
      = joinLines ((computeLineDiff f.originalContent f.currentContent).filterMap
          (fun l =>
            match l.type with
            | LineType.context => some l.content
            | LineType.added => if l ∈ h.lines then none else some l.content
            | LineType.removed => if l ∈ h.lines then some l.content else none))
    ∧ assocGet (rejectHunkImmediate s fp h.id).disk fp
        = some (applyHunkDecisions f.originalContent f.currentContent
            (rejectDecisions f.hunks h.id))
    ∧ (∀ f2 ∈ (rejectHunkImmediate s fp h.id).pendingFiles, f2.filePath = fp →
        f2.originalContent = f.originalContent) := by
  have hmem2 : h ∈ computeHunks f.originalContent f.currentContent := hhunks ▸ hmem
  have hid2 : ∀ h2 ∈ computeHunks f.originalContent f.currentContent,
      h2.id = h.id → h2 = h := by
    intro h2 hm he
    exact hid h2 (hhunks ▸ hm) he
  have hpure : applyHunkDecisions f.originalContent f.currentContent
      (rejectDecisions f.hunks h.id)
      = joinLines ((computeLineDiff f.originalContent f.currentContent).filterMap
          (fun l =>
            match l.type with
            | LineType.context => some l.content
            | LineType.added => if l ∈ h.lines then none else some l.content
            | LineType.removed => if l ∈ h.lines then some l.content else none)) := by
    rw [hhunks]
    exact applyHunkDecisions_reject_pick f.originalContent f.currentContent h hmem2 hid2
  have hidfind : f.hunks.find? (fun h2 => h2.id = h.id) ≠ none := by
    intro hnone
    have := List.find?_eq_none.1 hnone h hmem
    simp at this
  obtain ⟨y, hy⟩ : ∃ y, f.hunks.find? (fun h2 => h2.id = h.id) = some y := by
    cases hx : f.hunks.find? (fun h2 => h2.id = h.id) with
    | none => exact absurd hx hidfind
    | some y => exact ⟨y, rfl⟩
  refine ⟨hpure, ?_, ?_⟩
  · unfold rejectHunkImmediate
    simp only [hfind]
    simp only [hy]
    by_cases hrem : computeHunks f.originalContent
        (applyHunkDecisions f.originalContent f.currentContent
          (rejectDecisions f.hunks h.id)) = []
    · rw [if_pos hrem]
      exact assocGet_assocSet s.disk fp _
    · rw [if_neg hrem]
      exact assocGet_assocSet s.disk fp _
  · unfold rejectHunkImmediate
    simp only [hfind]
    simp only [hy]
    by_cases hrem : computeHunks f.originalContent
        (applyHunkDecisions f.originalContent f.currentContent
          (rejectDecisions f.hunks h.id)) = []
    · rw [if_pos hrem]
      intro f2 hf2 hfp
      exfalso
      have := (List.mem_filter.1 hf2).2
      rw [hfp] at this
      simp at this
    · rw [if_neg hrem]
      intro f2 hf2 hfp
      obtain ⟨x, hx, hxe⟩ := List.mem_map.1 hf2
      by_cases hxp : x.filePath = fp
      · have hxf : x = f := hfile x hx hxp
        rw [← hxe, if_pos hxp, hxf]
      · rw [← hxe, if_neg hxp] at hfp ⊢
        exact absurd hfp hxp

/-- C3 (amended): after `acceptHunkImmediate(f, h)` the baseline advances to
the reconstruction that folds in exactly `h`'s added lines (and restores the
original side of every other hunk); and when `h` is the only hunk of `f`,
recomputing hunks from the new baseline against the same on-disk content
yields no hunks at all, so the tracked file is cleared and the accepted
change can never reappear as a pending hunk. -/
theorem acceptHunkImmediate_spec (s : ManagerState) (fp : String) (f : PendingFile)
    (h : Hunk)
    (hfind : s.pendingFiles.find? (fun x => x.filePath = fp) = some f)
    (hhunks : f.hunks = computeHunks f.originalContent f.currentContent)
    (hmem : h ∈ f.hunks)
    (hid : ∀ h2 ∈ f.hunks, h2.id = h.id → h2 = h)
    (hdisk : assocGet s.disk fp = some f.currentContent) :
    applyHunkDecisions f.originalContent f.currentContent (acceptDecisions f.hunks h.id)
      = joinLines ((computeLineDiff f.originalContent f.currentContent).filterMap
          (fun l =>
            match l.type with
            | LineType.context => some l.content
            | LineType.added => if l ∈ h.lines then some l.content else none
            | LineType.removed => if l ∈ h.lines then none else some l.content))
    ∧ (f.hunks = [h] →
        (acceptHunkImmediate s fp h.id).pendingFiles.find?
          (fun x => x.filePath = fp) = none) := by
  have hmem2 : h ∈ computeHunks f.originalContent f.currentContent := hhunks ▸ hmem
  have hid2 : ∀ h2 ∈ computeHunks f.originalContent f.currentContent,
      h2.id = h.id → h2 = h := by
    intro h2 hm he
    exact hid h2 (hhunks ▸ hm) he
  refine ⟨?_, ?_⟩
  · rw [hhunks]
    exact applyHunkDecisions_accept_pick f.originalContent f.currentContent h hmem2 hid2
  · intro hsingle
    have hdec : acceptDecisions f.hunks h.id
        = [{ h with status := HunkStatus.accepted }] := by
      rw [hsingle]
      unfold acceptDecisions
      rw [List.map_cons, List.map_nil, if_pos rfl]
    have hnew : applyHunkDecisions f.originalContent f.currentContent
        (acceptDecisions f.hunks h.id) = f.currentContent := by
      rw [hdec, applyHunkDecisions, if_pos (by simp)]
    obtain ⟨y, hy⟩ : ∃ y, f.hunks.find? (fun h2 => h2.id = h.id) = some y := by
      cases hx : f.hunks.find? (fun h2 => h2.id = h.id) with
      | none =>
        exfalso
        have := List.find?_eq_none.1 hx h hmem
        simp at this
      | some y => exact ⟨y, rfl⟩
    unfold acceptHunkImmediate
    simp only [hfind]
    simp only [hy]
    simp only [hnew]
    simp only [hdisk]
    rw [computeHunks_self, if_pos rfl]
    exact find?_filter_filePath s.pendingFiles fp

/-- Added-line contents of a hunk (what C3 calls the hunk's added content). -/
def addedContents (h : Hunk) : List String :=
  (h.lines.filter (fun l => decide (l.type = LineType.added))).map DiffLine.content

def c3File : PendingFile :=
  { filePath := "note.md", vaultPath := "note.md", originalContent := "x\ny",
    currentContent := "a\nx\ny\na", hunks := computeHunks "x\ny" "a\nx\ny\na",
    timestamp := 0 }

def c3State : ManagerState :=
  { pendingFiles := [c3File], pendingEdits := [],
    originalFileStates := [("note.md", "x\ny")], disk := [("note.md", "a\nx\ny\na")] }

/-- C3 counterexample: the tracked file has baseline `"x\ny"` and disk content
`"a\nx\ny\na"`, two pending hunks each adding one line `"a"` (ids `hunk-0`
and `hunk-1`, same added content).  After `acceptHunkImmediate` on `hunk-0`
the recomputed pending hunks of the file still contain a hunk whose added
content equals the added content `["a"]` of the accepted hunk, so the claim's
"never reproduces a hunk with the same added content" fails. -/
theorem acceptHunk_same_added_content_counterexample :
    addedContents ((computeHunks "x\ny" "a\nx\ny\na").headD (createHunk 0 0 0 []))
        = ["a"]
    ∧ ((computeHunks "x\ny" "a\nx\ny\na").headD (createHunk 0 0 0 [])).id = "hunk-0"
    ∧ (acceptHunkImmediate c3State "note.md" "hunk-0").pendingFiles.any
        (fun f => f.hunks.any (fun hk => decide (addedContents hk = ["a"]))) = true := by
  refine ⟨by decide, by decide, by decide⟩

def c3wFile : PendingFile :=
  { filePath := "w.md", vaultPath := "w.md", originalContent := "p",
    currentContent := "q", hunks := computeHunks "p" "q", timestamp := 0 }

def c3wState : ManagerState :=
  { pendingFiles := [c3wFile], pendingEdits := [],
    originalFileStates := [("w.md", "p")], disk := [("w.md", "q")] }

def c3wHunk : Hunk := (computeHunks "p" "q").headD (createHunk 0 0 0 [])

theorem acceptHunkImmediate_spec_witness :
    applyHunkDecisions c3wFile.originalContent c3wFile.currentContent
        (acceptDecisions c3wFile.hunks c3wHunk.id)
      = joinLines ((computeLineDiff c3wFile.originalContent
          c3wFile.currentContent).filterMap
          (fun l =>
            match l.type with
            | LineType.context => some l.content
            | LineType.added => if l ∈ c3wHunk.lines then some l.content else none
            | LineType.removed => if l ∈ c3wHunk.lines then none else some l.content))
    ∧ (acceptHunkImmediate c3wState "w.md" c3wHunk.id).pendingFiles.find?
        (fun x => x.filePath = "w.md") = none :=
  ⟨(acceptHunkImmediate_spec c3wState "w.md" c3wFile c3wHunk (by decide) (by decide)
      (by decide) (by decide) (by decide)).1,
   (acceptHunkImmediate_spec c3wState "w.md" c3wFile c3wHunk (by decide) (by decide)
      (by decide) (by decide) (by decide)).2 (by decide)⟩

def c4File : PendingFile :=
  { filePath := "c4.md", vaultPath := "c4.md", originalContent := "x\ny",
    currentContent := "a\nx\ny\na", hunks := computeHunks "x\ny" "a\nx\ny\na",
    timestamp := 0 }

def c4State : ManagerState :=
  { pendingFiles := [c4File], pendingEdits := [],
    originalFileStates := [("c4.md", "x\ny")], disk := [("c4.md", "a\nx\ny\na")] }

def c4Hunk : Hunk := (computeHunks "x\ny" "a\nx\ny\na").headD (createHunk 0 0 0 [])

theorem rejectHunkImmediate_spec_witness :
    applyHunkDecisions c4File.originalContent c4File.currentContent
        (rejectDecisions c4File.hunks c4Hunk.id)
      = joinLines ((computeLineDiff c4File.originalContent
          c4File.currentContent).filterMap
          (fun l =>
            match l.type with
            | LineType.context => some l.content
            | LineType.added => if l ∈ c4Hunk.lines then none else some l.content
            | LineType.removed => if l ∈ c4Hunk.lines then some l.content else none))
    ∧ assocGet (rejectHunkImmediate c4State "c4.md" c4Hunk.id).disk "c4.md"
        = some (applyHunkDecisions c4File.originalContent c4File.currentContent
            (rejectDecisions c4File.hunks c4Hunk.id)) :=
  ⟨(rejectHunkImmediate_spec c4State "c4.md" c4File c4Hunk (by decide) (by decide)
      (by decide) (by decide) (by decide)).1,
   (rejectHunkImmediate_spec c4State "c4.md" c4File c4Hunk (by decide) (by decide)
      (by decide) (by decide) (by decide)).2.1⟩
